import Mathlib

/-!
Verification of the `const-vec` crate (`src/lib.rs`): a fixed-capacity
vector `ConstVec<T>` whose `push` works through a shared reference via a
`Cell<usize>` length field.

Embedding conventions:
* The raw allocation of `capacity` slots is modelled as `mem : List (Option T)`
  whose length is the allocation size; `some x` marks an initialized slot,
  `none` an uninitialized one (`ptr::write` is `List.set`, `ptr::read` at index
  `i` is `mem[i]?.join`).
* `ConstVec` carries the `capacity` field and the `len` cell as `Nat`s, exactly
  as the Rust struct carries `capacity: usize` and `len: Cell<usize>`.
* A Rust `panic!` is modelled either as `Option.none` (for `push`, whose
  claims only concern whether it panics) or, for `append`, as a `Bool` panic
  flag paired with the state observable after unwinding; since the source
  checks capacity before any mutation, that state is the unchanged input.
* `std::vec::Vec` is modelled by `RustVec` with the same
  (pointer, capacity, length) shape.
-/

/-- Model of the Rust struct `ConstVec<T> { ptr, capacity, len }`.
`mem` is the block of `capacity` slots behind `ptr`. -/
structure ConstVec (T : Type) where
  mem : List (Option T)
  capacity : Nat
  len : Nat
deriving DecidableEq

/-- Model of `std::vec::Vec<T>` as the (memory, capacity, length) triple used
by the crate through `as_slice`, `set_len`, `as_mut_ptr`, `len`, `capacity`. -/
structure RustVec (T : Type) where
  mem : List (Option T)
  capacity : Nat
  len : Nat
deriving DecidableEq

namespace ConstVec

/-- Source `ConstVec::new(capacity)`: allocates `capacity` uninitialized slots,
length 0. (Allocation failure aborts the process and is outside the model.) -/
def new (T : Type) (capacity : Nat) : ConstVec T :=
  { mem := List.replicate capacity none, capacity := capacity, len := 0 }

/-- Source `ConstVec::from_raw_parts(ptr, len, capacity)`: adopts the triple
unchecked. The caller contract (`len ≤ capacity`, first `len` slots
initialized, allocation of exactly `capacity` slots, i.e. `mem.length =
capacity`) is not validated here, mirroring the unsafe Rust function. -/
def from_raw_parts (mem : List (Option T)) (len : Nat) (capacity : Nat) :
    ConstVec T :=
  { mem := mem, capacity := capacity, len := len }

/-- Source `ConstVec::into_raw_parts`: returns (pointer, length, capacity)
without running destructors. -/
def into_raw_parts (v : ConstVec T) : List (Option T) × Nat × Nat :=
  (v.mem, v.len, v.capacity)

/-- Source `ConstVec::as_slice`: the first `len` slots viewed as a slice.
`reduceOption` extracts the initialized values; on any state satisfying `WF`
all of the first `len` slots are initialized, so nothing is skipped. -/
def asSlice (v : ConstVec T) : List T :=
  (v.mem.take v.len).reduceOption

/-- Source `ConstVec::is_empty`. -/
def isEmpty (v : ConstVec T) : Bool :=
  v.len == 0

/-- Source `ConstVec::push(&self, value)`: if `len < capacity`, write `value`
into slot `len` and set `len + 1`; otherwise `panic!("not enough capacity")`,
modelled as `none`. -/
def push (v : ConstVec T) (value : T) : Option (ConstVec T) :=
  if v.len < v.capacity then
    some { mem := v.mem.set v.len (some value), capacity := v.capacity,
           len := v.len + 1 }
  else
    none

/-- Iterated `push`: `pushAll v [x1, ..., xn]` performs the n pushes in order,
propagating a panic. -/
def pushAll (v : ConstVec T) (xs : List T) : Option (ConstVec T) :=
  xs.foldlM push v

/-- Source `ConstVec::pop(&mut self)`: on `len == 0` return `None` (state
untouched); otherwise decrement `len` and read the slot at the new length. -/
def pop (v : ConstVec T) : Option T × ConstVec T :=
  if v.len = 0 then
    (none, v)
  else
    ((v.mem[v.len - 1]?).join,
     { mem := v.mem, capacity := v.capacity, len := v.len - 1 })

/-- Source `ConstVec::append_elements(&self, other)`: `ptr::copy_nonoverlapping`
of `count` elements into slots `len, len+1, ...`, then `len := len + count`.
The slot-by-slot copy is `writeSeq`. -/
def writeSeq (mem : List (Option T)) (i : Nat) : List T → List (Option T)
  | [] => mem
  | x :: rest => writeSeq (mem.set i (some x)) (i + 1) rest

/-- Source `ConstVec::append_elements` (the unsafe helper used by `append`). -/
def appendElements (v : ConstVec T) (other : List T) : ConstVec T :=
  { mem := writeSeq v.mem v.len other, capacity := v.capacity,
    len := v.len + other.length }

/-- Source `ConstVec::clear(&mut self)`: set `len := 0` first, then drop the
previously live elements in place (dropping does not change the observable
state of the vector, so the model only resets the length; the allocation and
capacity are retained). -/
def clear (v : ConstVec T) : ConstVec T :=
  { mem := v.mem, capacity := v.capacity, len := 0 }

end ConstVec

namespace RustVec

/-- Source `Vec::as_slice` on the donor: its first `len` slots. -/
def asSlice (v : RustVec T) : List T :=
  (v.mem.take v.len).reduceOption

/-- Source `Vec::set_len(0)` as used by `ConstVec::append`. -/
def setLen0 (v : RustVec T) : RustVec T :=
  { mem := v.mem, capacity := v.capacity, len := 0 }

end RustVec

namespace ConstVec

/-- Source `ConstVec::append(&self, other: &mut Vec<T>)`: when
`len + other.len ≤ capacity`, copy the donor's slice in and set the donor's
length to 0; otherwise `panic!("not enough capacity")` before touching either
value. The `Bool` is the panic flag; the pair is the state observable after
the call (unchanged on the panic path, since the check precedes all writes). -/
def append (v : ConstVec T) (other : RustVec T) :
    Bool × ConstVec T × RustVec T :=
  if v.len + other.len ≤ v.capacity then
    (false, v.appendElements other.asSlice, other.setLen0)
  else
    (true, v, other)

/-- Source `Clone for ConstVec<T>`: a fresh vector with the *same capacity*,
then `push` of (a clone of) each live element in order. A panic inside one of
the pushes (impossible on well-formed inputs) propagates as `none`. -/
def clone (v : ConstVec T) : Option (ConstVec T) :=
  pushAll (new T v.capacity) v.asSlice

/-- Source `From<Vec<T>> for ConstVec<T>`: adopt the Vec's
(pointer, length, capacity) via `from_raw_parts`. -/
def fromVec (value : RustVec T) : ConstVec T :=
  from_raw_parts value.mem value.len value.capacity

/-- Source `From<ConstVec<T>> for Vec<T>`: `into_raw_parts` then
`Vec::from_raw_parts` on the same triple. -/
def toVec (value : ConstVec T) : RustVec T :=
  { mem := value.into_raw_parts.1, capacity := value.into_raw_parts.2.2,
    len := value.into_raw_parts.2.1 }

/-- Well-formedness: the invariant documented for the Rust struct — the
allocation holds exactly `capacity` slots, `len ≤ capacity`, and the first
`len` slots are initialized. Constructed states satisfy it; `from_raw_parts`
demands it from the caller. -/
def WF (v : ConstVec T) : Prop :=
  v.mem.length = v.capacity ∧ v.len ≤ v.capacity ∧
    (v.mem.take v.len).all Option.isSome = true

instance (v : ConstVec T) : Decidable v.WF := by
  unfold WF; infer_instance

end ConstVec

/-- Donor well-formedness: a genuine `Vec` has `len ≤ capacity`, an allocation
of `capacity` slots, and its first `len` slots initialized. -/
def RustVec.WF (v : RustVec T) : Prop :=
  v.mem.length = v.capacity ∧ v.len ≤ v.capacity ∧
    (v.mem.take v.len).all Option.isSome = true

instance (v : RustVec T) : Decidable v.WF := by
  unfold RustVec.WF; infer_instance

/-- Model of the Rust struct `IntoIter<T> { ptr, capacity, start, end }`.
The two cursors are kept as element indices into `mem`: `start` for the
source's `start` pointer and `stop` for its `end` pointer (a Lean keyword). -/
structure IntoIter (T : Type) where
  mem : List (Option T)
  capacity : Nat
  start : Nat
  stop : Nat
deriving DecidableEq

namespace ConstVec

/-- Source `IntoIterator for ConstVec<T>`: transfer the allocation, cursors at
`ptr` and `ptr + len` (indices 0 and `len`). -/
def intoIter (v : ConstVec T) : IntoIter T :=
  { mem := v.mem, capacity := v.capacity, start := 0, stop := v.len }

end ConstVec

namespace IntoIter

/-- Source `IntoIter::len`: the cursor distance in elements
(`(end - start) / size_of::<T>()` in bytes). -/
def len (it : IntoIter T) : Nat :=
  it.stop - it.start

/-- Source `Iterator::next for IntoIter<T>`: if the cursors meet, `None`;
otherwise read the element at `start` and advance `start`. -/
def next (it : IntoIter T) : Option T × IntoIter T :=
  if it.start = it.stop then
    (none, it)
  else
    ((it.mem[it.start]?).join,
     { mem := it.mem, capacity := it.capacity, start := it.start + 1,
       stop := it.stop })

/-- Source `DoubleEndedIterator::next_back for IntoIter<T>`: if the cursors
meet, `None`; otherwise retreat `end` and read the element there. -/
def nextBack (it : IntoIter T) : Option T × IntoIter T :=
  if it.start = it.stop then
    (none, it)
  else
    ((it.mem[it.stop - 1]?).join,
     { mem := it.mem, capacity := it.capacity, start := it.start,
       stop := it.stop - 1 })

/-- The not-yet-yielded elements: the live window strictly between the two
cursors. -/
def window (it : IntoIter T) : List T :=
  ((it.mem.take it.stop).drop it.start).reduceOption

/-- Iterator well-formedness: `start ≤ end`, the window lies inside the
allocation, and every slot in the window is initialized. -/
def WF (it : IntoIter T) : Prop :=
  it.start ≤ it.stop ∧ it.stop ≤ it.mem.length ∧
    ((it.mem.take it.stop).drop it.start).all Option.isSome = true

instance (it : IntoIter T) : Decidable it.WF := by
  unfold WF; infer_instance

/-- One interleaving of front/back pulls: `true` is a `next` call, `false` a
`next_back` call. Returns the elements the front calls yielded (in call
order), those the back calls yielded (in call order), and the final iterator
state. Calls returning `None` yield nothing. -/
def runIter (it : IntoIter T) : List Bool → List T × List T × IntoIter T
  | [] => ([], [], it)
  | true :: ds =>
    match next it with
    | (some x, it1) =>
      let r := runIter it1 ds
      (x :: r.1, r.2.1, r.2.2)
    | (none, it1) => runIter it1 ds
  | false :: ds =>
    match nextBack it with
    | (some x, it1) =>
      let r := runIter it1 ds
      (r.1, x :: r.2.1, r.2.2)
    | (none, it1) => runIter it1 ds

end IntoIter

namespace IntoIter

/-- State of the iterator after a successful front pull: `start` advanced. -/
def stepFront (it : IntoIter T) : IntoIter T :=
  { mem := it.mem, capacity := it.capacity, start := it.start + 1, stop := it.stop }

/-- State of the iterator after a successful back pull: `stop` retreated. -/
def stepBack (it : IntoIter T) : IntoIter T :=
  { mem := it.mem, capacity := it.capacity, start := it.start, stop := it.stop - 1 }

end IntoIter

/-- Consuming a container and running one interleaving of front/back pulls
(see `IntoIter.runIter`). -/
def ConstVec.iterRun (v : ConstVec T) (ds : List Bool) :
    List T × List T × IntoIter T :=
  IntoIter.runIter v.intoIter ds

/-- Single safe mutating operation on a `ConstVec`, as observable after the
call returns (or, for `append`, after a capacity panic unwinds): a successful
`push`, a `pop`, an `append` of some donor, or a `clear`. -/
inductive ConstVecStep (T : Type) : ConstVec T → ConstVec T → Prop where
  | push (v : ConstVec T) (x : T) (v' : ConstVec T) :
      v.push x = some v' → ConstVecStep T v v'
  | pop (v : ConstVec T) : ConstVecStep T v (v.pop).2
  | append (v : ConstVec T) (other : RustVec T) :
      ConstVecStep T v (v.append other).2.1
  | clear (v : ConstVec T) : ConstVecStep T v v.clear

/-- States reachable from `ConstVec::new` by the safe operations. -/
inductive ConstVecReach (T : Type) : ConstVec T → Prop where
  | new (c : Nat) : ConstVecReach T (ConstVec.new T c)
  | step {v v' : ConstVec T} :
      ConstVecReach T v → ConstVecStep T v v' → ConstVecReach T v'

/-! Helper lemmas about optional memory and slot writes. -/

namespace ConstVec

lemma reduceOption_map_some_of_all :
    ∀ {l : List (Option T)}, l.all Option.isSome = true →
      l.reduceOption.map some = l := by
  intro l
  induction l with
  | nil => intro; rfl
  | cons a l ih =>
    intro h
    rw [List.all_cons, Bool.and_eq_true] at h
    obtain ⟨x, rfl⟩ := Option.isSome_iff_exists.mp h.1
    rw [List.reduceOption_cons_of_some, List.map_cons, ih h.2]

lemma reduceOption_length_of_all {l : List (Option T)}
    (h : l.all Option.isSome = true) : l.reduceOption.length = l.length := by
  conv_rhs => rw [← reduceOption_map_some_of_all h]
  rw [List.length_map]

lemma take_set_of_le (l : List (Option T)) (i j : Nat) (a : Option T)
    (h : j ≤ i) : (l.set i a).take j = l.take j := by
  apply List.ext_getElem?
  intro n
  by_cases hn : n < j
  · rw [List.getElem?_take_of_lt hn, List.getElem?_take_of_lt hn,
      List.getElem?_set_ne (by omega)]
  · rw [List.getElem?_eq_none, List.getElem?_eq_none]
    · simp only [List.length_take]
      omega
    · simp only [List.length_take, List.length_set]
      omega

lemma take_succ_set (l : List (Option T)) (i : Nat) (a : Option T)
    (h : i < l.length) : (l.set i a).take (i + 1) = l.take i ++ [a] := by
  rw [List.take_succ, take_set_of_le l i i a (Nat.le_refl i),
    List.getElem?_set_eq_of_lt a h]
  rfl

lemma writeSeq_length (xs : List T) :
    ∀ (mem : List (Option T)) (i : Nat),
      (writeSeq mem i xs).length = mem.length := by
  induction xs with
  | nil => intro mem i; rfl
  | cons x rest ih =>
    intro mem i
    rw [writeSeq, ih, List.length_set]

lemma writeSeq_take_of_le (xs : List T) :
    ∀ (mem : List (Option T)) (i j : Nat), j ≤ i →
      (writeSeq mem i xs).take j = mem.take j := by
  induction xs with
  | nil => intro mem i j _; rfl
  | cons x rest ih =>
    intro mem i j h
    rw [writeSeq, ih _ (i + 1) j (by omega), take_set_of_le _ _ _ _ h]

lemma writeSeq_take_full (xs : List T) :
    ∀ (mem : List (Option T)) (i : Nat), i + xs.length ≤ mem.length →
      (writeSeq mem i xs).take (i + xs.length) = mem.take i ++ xs.map some := by
  induction xs with
  | nil => intro mem i _; simp [writeSeq]
  | cons x rest ih =>
    intro mem i h
    rw [List.length_cons] at h
    have hi : i < mem.length := by omega
    have harr : i + (x :: rest).length = (i + 1) + rest.length := by
      rw [List.length_cons]; omega
    rw [writeSeq, harr, ih _ (i + 1) (by rw [List.length_set]; omega),
      take_succ_set mem i (some x) hi, List.map_cons, List.append_assoc,
      List.singleton_append]

end ConstVec

namespace ConstVec

lemma new_WF (c : Nat) : (new T c).WF := by
  refine ⟨?_, Nat.zero_le c, ?_⟩
  · rw [new, List.length_replicate]
  · rfl

lemma asSlice_new (c : Nat) : (new T c).asSlice = [] := rfl

lemma asSlice_length (v : ConstVec T) (hwf : v.WF) :
    v.asSlice.length = v.len := by
  rw [asSlice, reduceOption_length_of_all hwf.2.2, List.length_take]
  have h1 := hwf.1
  have h2 := hwf.2.1
  exact min_eq_left (by omega)

end ConstVec

namespace ConstVec

lemma push_eq_some (v : ConstVec T) (x : T) (h : v.len < v.capacity) :
    v.push x = some { mem := v.mem.set v.len (some x), capacity := v.capacity,
                      len := v.len + 1 } := by
  rw [push, if_pos h]

lemma push_eq_none (v : ConstVec T) (x : T) (h : ¬ v.len < v.capacity) :
    v.push x = none := by
  rw [push, if_neg h]

lemma push_sound (v : ConstVec T) (x : T) (hwf : v.WF)
    (h : v.len < v.capacity) :
    ∃ v', v.push x = some v' ∧ v'.WF ∧ v'.capacity = v.capacity ∧
      v'.len = v.len + 1 ∧ v'.asSlice = v.asSlice ++ [x] ∧
      v'.mem[v.len]? = some (some x) := by
  obtain ⟨hlen, hle, hsome⟩ := hwf
  have hmem : v.len < v.mem.length := by omega
  have htake : (v.mem.set v.len (some x)).take (v.len + 1)
      = v.mem.take v.len ++ [some x] := take_succ_set v.mem v.len (some x) hmem
  refine ⟨_, push_eq_some v x h, ⟨?_, h, ?_⟩, rfl, rfl, ?_, ?_⟩
  · rw [List.length_set]; exact hlen
  · show ((v.mem.set v.len (some x)).take (v.len + 1)).all Option.isSome = true
    rw [htake, List.all_append, hsome]
    rfl
  · show ((v.mem.set v.len (some x)).take (v.len + 1)).reduceOption
      = v.asSlice ++ [x]
    rw [htake, List.reduceOption_append, asSlice]
    rfl
  · exact List.getElem?_set_eq_of_lt (some x) hmem

lemma pushAll_sound (xs : List T) :
    ∀ v : ConstVec T, v.WF → v.len + xs.length ≤ v.capacity →
      ∃ v', pushAll v xs = some v' ∧ v'.WF ∧ v'.capacity = v.capacity ∧
        v'.len = v.len + xs.length ∧ v'.asSlice = v.asSlice ++ xs := by
  induction xs with
  | nil =>
    intro v hwf _
    exact ⟨v, rfl, hwf, rfl, rfl, by rw [List.append_nil]⟩
  | cons x rest ih =>
    intro v hwf hcap
    rw [List.length_cons] at hcap
    obtain ⟨v1, hpush, hwf1, hc1, hl1, hs1, _⟩ :=
      push_sound v x hwf (by omega)
    obtain ⟨v', hrest, hwf', hc', hl', hs'⟩ :=
      ih v1 hwf1 (by rw [hc1, hl1]; omega)
    refine ⟨v', ?_, hwf', by rw [hc', hc1], by rw [hl', hl1, List.length_cons]; omega, ?_⟩
    · rw [pushAll, List.foldlM_cons, hpush]
      exact hrest
    · rw [hs', hs1, List.append_assoc, List.singleton_append]

end ConstVec

namespace IntoIter

lemma window_length (it : IntoIter T) (hwf : it.WF) :
    (window it).length = it.len := by
  rw [window, ConstVec.reduceOption_length_of_all hwf.2.2, List.length_drop,
    List.length_take, min_eq_left hwf.2.1, len]

lemma next_of_eq (it : IntoIter T) (h : it.start = it.stop) :
    it.next = (none, it) := by
  rw [next, if_pos h]

lemma nextBack_of_eq (it : IntoIter T) (h : it.start = it.stop) :
    it.nextBack = (none, it) := by
  rw [nextBack, if_pos h]

lemma next_step (it : IntoIter T) (hwf : it.WF) (h : it.start < it.stop) :
    ∃ x, it.next = (some x, it.stepFront) ∧ it.stepFront.WF ∧
      window it = x :: window it.stepFront := by
  obtain ⟨hse, hsl, hall⟩ := hwf
  have hAlen : (it.mem.take it.stop).length = it.stop := by
    rw [List.length_take]
    exact min_eq_left hsl
  have hstartA : it.start < (it.mem.take it.stop).length := by
    rw [hAlen]; exact h
  have hdrop := List.drop_eq_getElem_cons (l := it.mem.take it.stop) hstartA
  rw [hdrop, List.all_cons, Bool.and_eq_true] at hall
  obtain ⟨x, hx⟩ := Option.isSome_iff_exists.mp hall.1
  have hidx : it.mem[it.start]? = some (some x) := by
    rw [← List.getElem?_take_of_lt (l := it.mem) h,
      List.getElem?_eq_getElem hstartA, hx]
  refine ⟨x, ?_, ⟨h, hsl, hall.2⟩, ?_⟩
  · rw [next, if_neg (Nat.ne_of_lt h), hidx]
    rfl
  · rw [window, window, hdrop, hx, List.reduceOption_cons_of_some]
    rfl

lemma nextBack_step (it : IntoIter T) (hwf : it.WF) (h : it.start < it.stop) :
    ∃ x, it.nextBack = (some x, it.stepBack) ∧ it.stepBack.WF ∧
      window it = window it.stepBack ++ [x] := by
  obtain ⟨hse, hsl, hall⟩ := hwf
  have hstop : it.stop - 1 < it.mem.length := by omega
  have hsucc : it.stop = (it.stop - 1) + 1 := by omega
  have htake : it.mem.take it.stop
      = it.mem.take (it.stop - 1) ++ [it.mem[it.stop - 1]] := by
    conv_lhs => rw [hsucc]
    rw [List.take_succ, List.getElem?_eq_getElem hstop]
    rfl
  have hlenA : (it.mem.take (it.stop - 1)).length = it.stop - 1 := by
    rw [List.length_take]
    exact min_eq_left (by omega)
  have hdrop : (it.mem.take it.stop).drop it.start
      = (it.mem.take (it.stop - 1)).drop it.start ++ [it.mem[it.stop - 1]] := by
    rw [htake, List.drop_append_of_le_length (by rw [hlenA]; omega)]
  rw [hdrop, List.all_append, Bool.and_eq_true] at hall
  have hallx : Option.isSome it.mem[it.stop - 1] = true := by
    have h2 := hall.2
    rw [List.all_cons] at h2
    simpa using h2
  obtain ⟨x, hx⟩ := Option.isSome_iff_exists.mp hallx
  have hidx : it.mem[it.stop - 1]? = some (some x) := by
    rw [List.getElem?_eq_getElem hstop, hx]
  refine ⟨x, ?_, ⟨show it.start ≤ it.stop - 1 by omega,
      show it.stop - 1 ≤ it.mem.length by omega, hall.1⟩, ?_⟩
  · rw [nextBack, if_neg (Nat.ne_of_lt h), hidx]
    rfl
  · rw [window, window, hdrop, hx, List.reduceOption_append]
    rfl

end IntoIter

namespace IntoIter

lemma window_of_eq (it : IntoIter T) (h : it.start = it.stop) :
    window it = [] := by
  rw [window, List.drop_eq_nil_of_le, List.reduceOption_nil]
  rw [List.length_take]
  omega

lemma next_none_iff (it : IntoIter T) (hwf : it.WF) :
    (it.next).1 = none ↔ window it = [] := by
  by_cases h : it.start = it.stop
  · rw [next_of_eq it h, window_of_eq it h]
    exact ⟨fun _ => rfl, fun _ => rfl⟩
  · have hlt : it.start < it.stop := Nat.lt_of_le_of_ne hwf.1 h
    obtain ⟨x, hnext, _, hwin⟩ := next_step it hwf hlt
    rw [hnext, hwin]
    constructor
    · intro hx
      exact absurd hx (by simp)
    · intro hx
      exact absurd hx (by simp)

lemma nextBack_none_iff (it : IntoIter T) (hwf : it.WF) :
    (it.nextBack).1 = none ↔ window it = [] := by
  by_cases h : it.start = it.stop
  · rw [nextBack_of_eq it h, window_of_eq it h]
    exact ⟨fun _ => rfl, fun _ => rfl⟩
  · have hlt : it.start < it.stop := Nat.lt_of_le_of_ne hwf.1 h
    obtain ⟨x, hnext, _, hwin⟩ := nextBack_step it hwf hlt
    rw [hnext, hwin]
    constructor
    · intro hx
      exact absurd hx (by simp)
    · intro hx
      exact absurd hx (by simp)

lemma runIter_sound (ds : List Bool) :
    ∀ it : IntoIter T, it.WF →
      (runIter it ds).2.2.WF ∧
      (runIter it ds).1 ++ window (runIter it ds).2.2
        ++ ((runIter it ds).2.1).reverse = window it := by
  induction ds with
  | nil =>
    intro it hwf
    exact ⟨hwf, by simp [runIter]⟩
  | cons d ds ih =>
    intro it hwf
    cases d with
    | true =>
      by_cases h : it.start = it.stop
      · have hr : runIter it (true :: ds) = runIter it ds := by
          rw [runIter, next_of_eq it h]
        rw [hr]
        exact ih it hwf
      · have hlt : it.start < it.stop := Nat.lt_of_le_of_ne hwf.1 h
        obtain ⟨x, hnext, hwf1, hwin⟩ := next_step it hwf hlt
        have hr : runIter it (true :: ds)
            = (x :: (runIter it.stepFront ds).1, (runIter it.stepFront ds).2.1,
               (runIter it.stepFront ds).2.2) := by
          rw [runIter, hnext]
        obtain ⟨ihwf, iheq⟩ := ih it.stepFront hwf1
        rw [hr]
        refine ⟨ihwf, ?_⟩
        rw [hwin, List.cons_append, List.cons_append, iheq]
    | false =>
      by_cases h : it.start = it.stop
      · have hr : runIter it (false :: ds) = runIter it ds := by
          rw [runIter, nextBack_of_eq it h]
        rw [hr]
        exact ih it hwf
      · have hlt : it.start < it.stop := Nat.lt_of_le_of_ne hwf.1 h
        obtain ⟨x, hnext, hwf1, hwin⟩ := nextBack_step it hwf hlt
        have hr : runIter it (false :: ds)
            = ((runIter it.stepBack ds).1, x :: (runIter it.stepBack ds).2.1,
               (runIter it.stepBack ds).2.2) := by
          rw [runIter, hnext]
        obtain ⟨ihwf, iheq⟩ := ih it.stepBack hwf1
        rw [hr]
        refine ⟨ihwf, ?_⟩
        show (runIter it.stepBack ds).1 ++ window (runIter it.stepBack ds).2.2
            ++ (x :: (runIter it.stepBack ds).2.1).reverse = window it
        rw [hwin, ← iheq, List.reverse_cons, ← List.append_assoc]

end IntoIter

/-- C9: for every capacity (including 0), `ConstVec::new(capacity)` yields a
container with `len == 0`, an empty slice view, and `capacity()` returning
exactly the requested capacity. -/
theorem new_fresh_container (T : Type) (c : Nat) :
    (ConstVec.new T c).len = 0 ∧ (ConstVec.new T c).asSlice = []
      ∧ (ConstVec.new T c).capacity = c ∧ (ConstVec.new T c).isEmpty = true :=
  ⟨rfl, rfl, rfl, rfl⟩

/-- C7: after `clear`, every query observes `len == 0` and an empty slice
view, while the capacity is unchanged. -/
theorem clear_empties_keeps_capacity (v : ConstVec T) :
    v.clear.len = 0 ∧ v.clear.asSlice = [] ∧ v.clear.isEmpty = true
      ∧ v.clear.capacity = v.capacity :=
  ⟨rfl, rfl, rfl, rfl⟩

/-- C5: decomposing with `into_raw_parts` and reconstructing with
`from_raw_parts` reproduces the container exactly (hence an identical live
slice, length and capacity); converting to a `Vec` and back likewise
reproduces an identical live slice, length and capacity. -/
theorem raw_parts_and_vec_roundtrip (v : ConstVec T) :
    ConstVec.from_raw_parts v.into_raw_parts.1 v.into_raw_parts.2.1
        v.into_raw_parts.2.2 = v
      ∧ ConstVec.fromVec v.toVec = v
      ∧ (ConstVec.from_raw_parts v.into_raw_parts.1 v.into_raw_parts.2.1
          v.into_raw_parts.2.2).asSlice = v.asSlice
      ∧ (ConstVec.fromVec v.toVec).asSlice = v.asSlice
      ∧ (ConstVec.fromVec v.toVec).len = v.len
      ∧ (ConstVec.fromVec v.toVec).capacity = v.capacity :=
  ⟨rfl, rfl, rfl, rfl, rfl, rfl⟩

/-- C1: pushing any sequence of values (up to capacity) from a fresh
container leaves the slice view equal to the pushed sequence in order; a
further `push` with spare capacity writes the value into slot `length` and
increments `length` by exactly 1, while a `push` at `length == capacity`
panics. -/
theorem push_writes_slot_increments_or_panics (c : Nat) (xs : List T) (x : T)
    (h : xs.length ≤ c) :
    ∃ v, ConstVec.pushAll (ConstVec.new T c) xs = some v ∧
      v.asSlice = xs ∧ v.len = xs.length ∧ v.capacity = c ∧
      (xs.length < c → ∃ v', v.push x = some v' ∧
        v'.mem[xs.length]? = some (some x) ∧ v'.len = v.len + 1 ∧
        v'.asSlice = xs ++ [x]) ∧
      (xs.length = c → v.push x = none) := by
  obtain ⟨v, hrun, hwf, hcap, hlen, hslice⟩ :=
    ConstVec.pushAll_sound xs (ConstVec.new T c) (ConstVec.new_WF c)
      (by simpa [ConstVec.new] using h)
  have hcap' : v.capacity = c := hcap
  have hlen' : v.len = xs.length := by simpa [ConstVec.new] using hlen
  have hslice' : v.asSlice = xs := by simpa [ConstVec.asSlice_new] using hslice
  refine ⟨v, hrun, hslice', hlen', hcap', ?_, ?_⟩
  · intro hlt
    obtain ⟨v', hpush, _, _, hl1, hs1, hm1⟩ :=
      ConstVec.push_sound v x hwf (by omega)
    refine ⟨v', hpush, ?_, hl1, by rw [hs1, hslice']⟩
    rw [← hlen']
    exact hm1
  · intro heq
    exact ConstVec.push_eq_none v x (by omega)

/-- C6: pushing `v` then popping returns `Some(v)` and restores the prior
length (and prior slice view); `pop` on an empty container returns `None`
and leaves the container unchanged. -/
theorem push_then_pop_identity (v : ConstVec T) (x : T) (hwf : v.WF) :
    (v.len < v.capacity →
      ∃ v', v.push x = some v' ∧ (v'.pop).1 = some x ∧
        (v'.pop).2.len = v.len ∧ (v'.pop).2.asSlice = v.asSlice) ∧
    (v.len = 0 → v.pop = (none, v)) := by
  constructor
  · intro hlt
    have hmem : v.len < v.mem.length := by
      have h1 := hwf.1
      omega
    have hpop : ConstVec.pop
        { mem := v.mem.set v.len (some x), capacity := v.capacity,
          len := v.len + 1 }
        = (some x, { mem := v.mem.set v.len (some x), capacity := v.capacity,
                     len := v.len }) := by
      rw [ConstVec.pop, if_neg (by omega : ¬ v.len + 1 = 0)]
      rw [show v.len + 1 - 1 = v.len from rfl,
        List.getElem?_set_eq_of_lt (some x) hmem]
      rfl
    refine ⟨_, ConstVec.push_eq_some v x hlt, ?_, ?_, ?_⟩
    · rw [hpop]
    · rw [hpop]
    · rw [hpop]
      show ((v.mem.set v.len (some x)).take v.len).reduceOption = v.asSlice
      rw [ConstVec.take_set_of_le v.mem v.len v.len (some x) (Nat.le_refl v.len)]
      rfl
  · intro h0
    rw [ConstVec.pop, if_pos h0]

namespace ConstVec

lemma step_preserves {v v' : ConstVec T} (hv : v.len ≤ v.capacity)
    (h : ConstVecStep T v v') :
    v'.len ≤ v'.capacity ∧ v'.capacity = v.capacity := by
  cases h with
  | push x v' hp =>
    rw [push] at hp
    by_cases hc : v.len < v.capacity
    · rw [if_pos hc, Option.some.injEq] at hp
      subst hp
      exact ⟨hc, rfl⟩
    · rw [if_neg hc] at hp
      exact absurd hp (by simp)
  | pop =>
    rw [pop]
    by_cases hc : v.len = 0
    · rw [if_pos hc]
      exact ⟨hv, rfl⟩
    · rw [if_neg hc]
      refine ⟨?_, rfl⟩
      show v.len - 1 ≤ v.capacity
      omega
  | append o =>
    rw [append]
    by_cases hc : v.len + o.len ≤ v.capacity
    · rw [if_pos hc]
      have hlen : o.asSlice.length ≤ o.len := by
        have h1 := List.reduceOption_length_le (o.mem.take o.len)
        have h2 : (o.mem.take o.len).length ≤ o.len := by
          rw [List.length_take]
          omega
        rw [RustVec.asSlice]
        omega
      refine ⟨?_, rfl⟩
      show v.len + o.asSlice.length ≤ v.capacity
      omega
    · rw [if_neg hc]
      exact ⟨hv, rfl⟩
  | clear =>
    exact ⟨Nat.zero_le _, rfl⟩

lemma reach_len_le {v : ConstVec T} (h : ConstVecReach T v) :
    v.len ≤ v.capacity := by
  induction h with
  | new c => exact Nat.zero_le c
  | step _ hs ih => exact (step_preserves ih hs).1

end ConstVec

/-- C2: every state reachable from `new` through the safe operations
satisfies `length ≤ capacity` (lengths are naturals, so `0 ≤ length` is
inherent), each safe operation preserves the invariant, and no operation
ever changes the capacity fixed at construction. -/
theorem safe_ops_keep_len_le_capacity (v v' : ConstVec T)
    (hreach : ConstVecReach T v) (hstep : ConstVecStep T v v') :
    v.len ≤ v.capacity ∧ v'.len ≤ v'.capacity ∧ v'.capacity = v.capacity := by
  have hv := ConstVec.reach_len_le hreach
  have hs := ConstVec.step_preserves hv hstep
  exact ⟨hv, hs.1, hs.2⟩

namespace ConstVec

lemma reduceOption_map_some (xs : List T) :
    (xs.map some).reduceOption = xs := by
  induction xs with
  | nil => rfl
  | cons x rest ih =>
    rw [List.map_cons, List.reduceOption_cons_of_some, ih]

lemma appendElements_slice (v : ConstVec T) (xs : List T) (hwf : v.WF)
    (h : v.len + xs.length ≤ v.capacity) :
    (v.appendElements xs).asSlice = v.asSlice ++ xs ∧
      (v.appendElements xs).len = v.len + xs.length ∧
      (v.appendElements xs).capacity = v.capacity := by
  refine ⟨?_, rfl, rfl⟩
  show ((writeSeq v.mem v.len xs).take (v.len + xs.length)).reduceOption
    = v.asSlice ++ xs
  rw [writeSeq_take_full xs v.mem v.len (by have h1 := hwf.1; omega),
    List.reduceOption_append, reduceOption_map_some, asSlice]

end ConstVec

lemma rustVecAsSlice_length (o : RustVec T) (how : o.WF) :
    o.asSlice.length = o.len := by
  rw [RustVec.asSlice, ConstVec.reduceOption_length_of_all how.2.2,
    List.length_take]
  have h1 := how.1
  have h2 := how.2.1
  exact min_eq_left (by omega)

/-- C3: when the combined length fits the capacity, `append` moves all donor
elements into the container in order (new slice = old slice ++ donor slice)
and leaves the donor with length 0; when it exceeds the capacity, `append`
panics and both the container and the donor are observably unchanged. -/
theorem append_moves_all_or_panics_unchanged (v : ConstVec T) (o : RustVec T)
    (hwf : v.WF) (how : o.WF) :
    (v.len + o.len ≤ v.capacity →
      (v.append o).1 = false ∧
      (v.append o).2.1.asSlice = v.asSlice ++ o.asSlice ∧
      (v.append o).2.1.len = v.len + o.len ∧
      (v.append o).2.1.capacity = v.capacity ∧
      (v.append o).2.2.len = 0 ∧ (v.append o).2.2.asSlice = []) ∧
    (v.capacity < v.len + o.len →
      (v.append o).1 = true ∧ (v.append o).2.1 = v ∧ (v.append o).2.2 = o) := by
  constructor
  · intro hc
    have hlen : o.asSlice.length = o.len := rustVecAsSlice_length o how
    obtain ⟨hs, hl, hcap⟩ :=
      ConstVec.appendElements_slice v o.asSlice hwf (by omega)
    rw [ConstVec.append, if_pos hc]
    refine ⟨rfl, hs, ?_, hcap, rfl, ?_⟩
    · rw [hl, hlen]
    · show ((o.mem.take 0).reduceOption : List T) = []
      rfl
  · intro hc
    rw [ConstVec.append, if_neg (by omega)]
    exact ⟨rfl, rfl, rfl⟩

/-- C10 (implicit): appending an empty donor never panics and is an identity
on both the container (slice, length, capacity — in fact the whole value)
and the donor. -/
theorem append_empty_donor_is_identity (v : ConstVec T) (o : RustVec T)
    (h : v.len ≤ v.capacity) (ho : o.len = 0) :
    v.append o = (false, v, o) := by
  have hcond : v.len + o.len ≤ v.capacity := by omega
  rw [ConstVec.append, if_pos hcond]
  have hslice : o.asSlice = [] := by
    rw [RustVec.asSlice, ho]
    rfl
  rw [hslice]
  have hself : v.appendElements [] = v := rfl
  have hdonor : o.setLen0 = o := by
    obtain ⟨om, oc, ol⟩ := o
    have ho' : ol = 0 := ho
    subst ho'
    rfl
  rw [hself, hdonor]

/-- C8: `clone` produces a container whose capacity equals the source's
capacity and whose live slice equals the source's; pushing to the clone
afterwards extends only the clone's slice, which then differs from the
original's (unchanged) slice. -/
theorem clone_same_capacity_equal_slice_independent (v : ConstVec T)
    (x : T) (hwf : v.WF) :
    ∃ w, v.clone = some w ∧ w.capacity = v.capacity ∧ w.asSlice = v.asSlice ∧
      (w.len < w.capacity → ∃ w', w.push x = some w' ∧
        w'.asSlice = v.asSlice ++ [x] ∧ w'.asSlice ≠ v.asSlice) := by
  have hlen : v.asSlice.length = v.len := ConstVec.asSlice_length v hwf
  have hsl : v.asSlice.length ≤ v.capacity := by
    rw [hlen]
    exact hwf.2.1
  obtain ⟨w, hrun, hwfw, hcap, hlenw, hslice⟩ :=
    ConstVec.pushAll_sound v.asSlice (ConstVec.new T v.capacity)
      (ConstVec.new_WF _) (by simpa [ConstVec.new] using hsl)
  have hslice' : w.asSlice = v.asSlice := by
    simpa [ConstVec.asSlice_new] using hslice
  refine ⟨w, hrun, hcap, hslice', ?_⟩
  intro hx
  obtain ⟨w', hpush, _, _, _, hs1, _⟩ := ConstVec.push_sound w x hwfw hx
  refine ⟨w', hpush, by rw [hs1, hslice'], ?_⟩
  rw [hs1, hslice']
  intro habs
  have hl := congrArg List.length habs
  rw [List.length_append, List.length_cons, List.length_nil] at hl
  omega

/-- C4: after any interleaving of front (`next`) and back (`next_back`) pulls
on the consuming iterator of a container, the reported `len()` equals the
exact number of not-yet-yielded elements; the front yields, the remaining
window, and the reversed back yields always recompose the original slice (so
every element is yielded exactly once, in slice order); `next`/`next_back`
return `None` exactly when the window is empty; and on exhaustion the total
yielded count equals the original length. -/
theorem intoIter_exact_len_and_interleaving (v : ConstVec T) (hwf : v.WF)
    (ds : List Bool) :
    (v.iterRun ds).2.2.len = ((v.iterRun ds).2.2.window).length ∧
    (v.iterRun ds).1 ++ (v.iterRun ds).2.2.window
        ++ ((v.iterRun ds).2.1).reverse = v.asSlice ∧
    (((v.iterRun ds).2.2.next).1 = none ↔ (v.iterRun ds).2.2.window = []) ∧
    (((v.iterRun ds).2.2.nextBack).1 = none
        ↔ (v.iterRun ds).2.2.window = []) ∧
    ((v.iterRun ds).2.2.window = [] →
      (v.iterRun ds).1.length + (v.iterRun ds).2.1.length
        = v.asSlice.length) := by
  have hitwf : v.intoIter.WF := by
    refine ⟨Nat.zero_le _, ?_, ?_⟩
    · show v.len ≤ v.mem.length
      have h1 := hwf.1
      have h2 := hwf.2.1
      omega
    · show ((v.mem.take v.len).drop 0).all Option.isSome = true
      rw [List.drop_zero]
      exact hwf.2.2
  have hwin0 : v.intoIter.window = v.asSlice := by
    show ((v.mem.take v.len).drop 0).reduceOption = v.asSlice
    rw [List.drop_zero]
    rfl
  obtain ⟨hwfF, heq⟩ := IntoIter.runIter_sound ds v.intoIter hitwf
  simp only [ConstVec.iterRun]
  have hmain : (IntoIter.runIter v.intoIter ds).1
      ++ (IntoIter.runIter v.intoIter ds).2.2.window
      ++ ((IntoIter.runIter v.intoIter ds).2.1).reverse = v.asSlice :=
    heq.trans hwin0
  refine ⟨(IntoIter.window_length _ hwfF).symm, hmain,
    IntoIter.next_none_iff _ hwfF, IntoIter.nextBack_none_iff _ hwfF, ?_⟩
  intro hempty
  rw [hempty] at hmain
  have hl := congrArg List.length hmain
  rw [List.length_append, List.length_append, List.length_nil,
    List.length_reverse] at hl
  omega

/-- Witness for C1: capacity 2, pushes [7], then push 9. -/
theorem push_writes_slot_increments_or_panics_witness :
    ∃ v, ConstVec.pushAll (ConstVec.new Nat 2) [7] = some v ∧
      v.asSlice = [7] ∧ v.len = [7].length ∧ v.capacity = 2 ∧
      ([7].length < 2 → ∃ v', v.push 9 = some v' ∧
        v'.mem[([7].length)]? = some (some 9) ∧ v'.len = v.len + 1 ∧
        v'.asSlice = [7] ++ [9]) ∧
      ([7].length = 2 → v.push 9 = none) :=
  push_writes_slot_increments_or_panics 2 [7] 9 (by decide)

/-- Witness for C2: one reachable state (fresh capacity-2 container) and one
step (a successful push of 5). -/
theorem safe_ops_keep_len_le_capacity_witness :
    (ConstVec.new Nat 2).len ≤ (ConstVec.new Nat 2).capacity ∧
      (ConstVec.mk [some 5, none] 2 1).len
        ≤ (ConstVec.mk [some 5, none] 2 1).capacity ∧
      (ConstVec.mk [some 5, none] 2 1).capacity
        = (ConstVec.new Nat 2).capacity :=
  safe_ops_keep_len_le_capacity (ConstVec.new Nat 2)
    (ConstVec.mk [some 5, none] 2 1) (ConstVecReach.new 2)
    (ConstVecStep.push (ConstVec.new Nat 2) 5
      (ConstVec.mk [some 5, none] 2 1) (by decide))

/-- Witness for C3: container [1] with capacity 3, donor [4, 5]. -/
theorem append_moves_all_or_panics_unchanged_witness :
    ((ConstVec.mk [some 1, none, none] 3 1).len + (RustVec.mk [some 4, some 5] 2 2).len ≤ (ConstVec.mk [some 1, none, none] 3 1).capacity →
      ((ConstVec.mk [some 1, none, none] 3 1).append (RustVec.mk [some 4, some 5] 2 2)).1 = false ∧
      ((ConstVec.mk [some 1, none, none] 3 1).append (RustVec.mk [some 4, some 5] 2 2)).2.1.asSlice = (ConstVec.mk [some 1, none, none] 3 1).asSlice ++ (RustVec.mk [some 4, some 5] 2 2).asSlice ∧
      ((ConstVec.mk [some 1, none, none] 3 1).append (RustVec.mk [some 4, some 5] 2 2)).2.1.len = (ConstVec.mk [some 1, none, none] 3 1).len + (RustVec.mk [some 4, some 5] 2 2).len ∧
      ((ConstVec.mk [some 1, none, none] 3 1).append (RustVec.mk [some 4, some 5] 2 2)).2.1.capacity = (ConstVec.mk [some 1, none, none] 3 1).capacity ∧
      ((ConstVec.mk [some 1, none, none] 3 1).append (RustVec.mk [some 4, some 5] 2 2)).2.2.len = 0 ∧ ((ConstVec.mk [some 1, none, none] 3 1).append (RustVec.mk [some 4, some 5] 2 2)).2.2.asSlice = []) ∧
    ((ConstVec.mk [some 1, none, none] 3 1).capacity < (ConstVec.mk [some 1, none, none] 3 1).len + (RustVec.mk [some 4, some 5] 2 2).len →
      ((ConstVec.mk [some 1, none, none] 3 1).append (RustVec.mk [some 4, some 5] 2 2)).1 = true ∧ ((ConstVec.mk [some 1, none, none] 3 1).append (RustVec.mk [some 4, some 5] 2 2)).2.1 = (ConstVec.mk [some 1, none, none] 3 1) ∧ ((ConstVec.mk [some 1, none, none] 3 1).append (RustVec.mk [some 4, some 5] 2 2)).2.2 = (RustVec.mk [some 4, some 5] 2 2)) :=
  append_moves_all_or_panics_unchanged (ConstVec.mk [some 1, none, none] 3 1) (RustVec.mk [some 4, some 5] 2 2) (by decide) (by decide)

/-- Witness for C4: container [3, 4], one front pull then one back pull. -/
theorem intoIter_exact_len_and_interleaving_witness :
    ((ConstVec.mk [some 3, some 4] 2 2).iterRun [true, false]).2.2.len = (((ConstVec.mk [some 3, some 4] 2 2).iterRun [true, false]).2.2.window).length ∧
    ((ConstVec.mk [some 3, some 4] 2 2).iterRun [true, false]).1 ++ ((ConstVec.mk [some 3, some 4] 2 2).iterRun [true, false]).2.2.window ++ (((ConstVec.mk [some 3, some 4] 2 2).iterRun [true, false]).2.1).reverse = (ConstVec.mk [some 3, some 4] 2 2).asSlice ∧
    ((((ConstVec.mk [some 3, some 4] 2 2).iterRun [true, false]).2.2.next).1 = none ↔ ((ConstVec.mk [some 3, some 4] 2 2).iterRun [true, false]).2.2.window = []) ∧
    ((((ConstVec.mk [some 3, some 4] 2 2).iterRun [true, false]).2.2.nextBack).1 = none ↔ ((ConstVec.mk [some 3, some 4] 2 2).iterRun [true, false]).2.2.window = []) ∧
    (((ConstVec.mk [some 3, some 4] 2 2).iterRun [true, false]).2.2.window = [] →
      ((ConstVec.mk [some 3, some 4] 2 2).iterRun [true, false]).1.length + ((ConstVec.mk [some 3, some 4] 2 2).iterRun [true, false]).2.1.length = (ConstVec.mk [some 3, some 4] 2 2).asSlice.length) :=
  intoIter_exact_len_and_interleaving (ConstVec.mk [some 3, some 4] 2 2) (by decide) [true, false]

/-- Witness for C6: container [1] with capacity 2, value 8. -/
theorem push_then_pop_identity_witness :
    ((ConstVec.mk [some 1, none] 2 1).len < (ConstVec.mk [some 1, none] 2 1).capacity →
      ∃ v', (ConstVec.mk [some 1, none] 2 1).push 8 = some v' ∧ (v'.pop).1 = some 8 ∧
        (v'.pop).2.len = (ConstVec.mk [some 1, none] 2 1).len ∧ (v'.pop).2.asSlice = (ConstVec.mk [some 1, none] 2 1).asSlice) ∧
    ((ConstVec.mk [some 1, none] 2 1).len = 0 → (ConstVec.mk [some 1, none] 2 1).pop = (none, (ConstVec.mk [some 1, none] 2 1))) :=
  push_then_pop_identity (ConstVec.mk [some 1, none] 2 1) 8 (by decide)

/-- Witness for C8: container [2] with capacity 2, value 6 pushed to the
clone. -/
theorem clone_same_capacity_equal_slice_independent_witness :
    ∃ w, (ConstVec.mk [some 2, none] 2 1).clone = some w ∧ w.capacity = (ConstVec.mk [some 2, none] 2 1).capacity ∧
      w.asSlice = (ConstVec.mk [some 2, none] 2 1).asSlice ∧
      (w.len < w.capacity → ∃ w', w.push 6 = some w' ∧
        w'.asSlice = (ConstVec.mk [some 2, none] 2 1).asSlice ++ [6] ∧ w'.asSlice ≠ (ConstVec.mk [some 2, none] 2 1).asSlice) :=
  clone_same_capacity_equal_slice_independent (ConstVec.mk [some 2, none] 2 1) 6 (by decide)

/-- Witness for C10: full container [1] at capacity 1 (length equals
capacity), empty donor. -/
theorem append_empty_donor_is_identity_witness :
    (ConstVec.mk [some 1] 1 1).append (RustVec.mk ([] : List (Option Nat)) 0 0) = (false, (ConstVec.mk [some 1] 1 1), (RustVec.mk ([] : List (Option Nat)) 0 0)) :=
  append_empty_donor_is_identity (ConstVec.mk [some 1] 1 1) (RustVec.mk ([] : List (Option Nat)) 0 0) (by decide) (by decide)
